import Mathlib

set_option maxRecDepth 8000

/-!
Verification of the solinas64 finite-field library (prime p = 2^64 - 2^32 + 1).

The C++ sources are shallowly embedded: uint64_t values become natural
numbers together with explicit reductions modulo 2^64 wherever the C code
can wrap, uint32_t values likewise modulo 2^32, and byte buffers become
functions from indices to byte values.  Each definition mirrors one
function of src/solinas64.h or src/solinas64.cpp.
-/

namespace solinas64

/-- Constant c with p = 2^64 - c: kPrimeSubC = ((uint64_t)1 << 32) - 1. -/
def kPrimeSubC : ℕ := (1 <<< 32) - 1

/-- The Solinas prime p: kPrime = 0 - kPrimeSubC evaluated in uint64_t,
which is 2^64 - kPrimeSubC = 2^64 - 2^32 + 1. -/
def kPrime : ℕ := 2 ^ 64 - kPrimeSubC

/-- Embedding of adc: x += y in uint64_t; returns (new x, carry flag).
The source returns true exactly when the updated x is below y. -/
def adc (x y : ℕ) : ℕ × Bool :=
  ((x + y) % 2 ^ 64, decide ((x + y) % 2 ^ 64 < y))

/-- Embedding of sbb: x -= y in uint64_t; returns (new x, borrow flag).
The source returns true exactly when the original x is below y. -/
def sbb (x y : ℕ) : ℕ × Bool :=
  ((x + (2 ^ 64 - y)) % 2 ^ 64, decide (x < y))

/-- Embedding of solinas64::Add: sum with up to two +c corrections on carry. -/
def Add (x y : ℕ) : ℕ :=
  if (adc x y).2 then
    if (adc (adc x y).1 kPrimeSubC).2 then
      (adc (adc (adc x y).1 kPrimeSubC).1 kPrimeSubC).1
    else (adc (adc x y).1 kPrimeSubC).1
  else (adc x y).1

/-- Embedding of solinas64::Subtract: difference with up to two -c corrections
on borrow. -/
def Subtract (x y : ℕ) : ℕ :=
  if (sbb x y).2 then
    if (sbb (sbb x y).1 kPrimeSubC).2 then
      (sbb (sbb (sbb x y).1 kPrimeSubC).1 kPrimeSubC).1
    else (sbb (sbb x y).1 kPrimeSubC).1
  else (sbb x y).1

/-- Value component of adc. -/
theorem adc_fst (x y : ℕ) : (adc x y).1 = (x + y) % 2 ^ 64 := rfl

/-- Carry component of adc, as a proposition. -/
theorem adc_snd (x y : ℕ) : (adc x y).2 = true ↔ (x + y) % 2 ^ 64 < y :=
  ⟨of_decide_eq_true, decide_eq_true⟩

/-- Value component of sbb. -/
theorem sbb_fst (x y : ℕ) : (sbb x y).1 = (x + (2 ^ 64 - y)) % 2 ^ 64 := rfl

/-- Borrow component of sbb, as a proposition. -/
theorem sbb_snd (x y : ℕ) : (sbb x y).2 = true ↔ x < y :=
  ⟨of_decide_eq_true, decide_eq_true⟩

/-- Embedding of solinas64::Multiply.  The 128-bit product is split as
(p_hi, p_lo); a2 and a3 are the 32-bit halves of p_hi; t = (a2 << 32) - a2.
The code adds t to p_lo (adding c on carry) and then subtracts a3,
discarding the borrow flag of the final sbb. -/
def Multiply (x y : ℕ) : ℕ :=
  let p_lo := x * y % 2 ^ 64
  let p_hi := x * y / 2 ^ 64 % 2 ^ 64
  let a2 := p_hi % 2 ^ 32
  let a3 := (p_hi >>> 32) % 2 ^ 32
  let t := ((a2 <<< 32) % 2 ^ 64 + (2 ^ 64 - a2)) % 2 ^ 64
  let r1 := adc p_lo t
  let r2 := if r1.2 then (adc r1.1 kPrimeSubC).1 else r1.1
  (sbb r2 a3).1

/-- Largest value representable in the field: kAmbiguityMax = 0xffffffff00000000. -/
def kAmbiguityMax : ℕ := 0xffffffff00000000

/-- Embedding of solinas64::IsAmbiguous: true when the word exceeds kAmbiguityMax. -/
def IsAmbiguous (u64_word : ℕ) : Bool := decide (u64_word > kAmbiguityMax)

/-- C3: For all 64-bit x and y, Add(x, y) is congruent to x + y modulo p;
on an initial carry at most two corrective additions of c happen, and the
second corrective addition of c never carries again (the innermost adc
always reports false). -/
theorem add_congruent_and_second_carry_free (x y : ℕ)
    (hx : x < 2 ^ 64) (hy : y < 2 ^ 64) :
    Nat.ModEq kPrime (Add x y) (x + y) ∧
    ((adc x y).2 = true → (adc (adc x y).1 kPrimeSubC).2 = true →
      (adc (adc (adc x y).1 kPrimeSubC).1 kPrimeSubC).2 = false) := by
  have hc : kPrimeSubC = 4294967295 := by decide
  have hp : kPrime = 18446744069414584321 := by decide
  constructor
  · show Add x y % kPrime = (x + y) % kPrime
    rw [hp]
    unfold Add
    rw [hc]
    split_ifs with h1 h2
    · rw [adc_snd] at h1 h2
      simp only [adc_fst] at h1 h2 ⊢
      omega
    · rw [adc_snd] at h1 h2
      simp only [adc_fst] at h1 h2 ⊢
      omega
    · rw [adc_snd] at h1
      simp only [adc_fst] at h1 ⊢
      omega
  · intro h1 h2
    rw [adc_snd] at h1 h2
    simp only [adc_fst] at h1 h2
    rw [hc] at h2 ⊢
    rw [Bool.eq_false_iff]
    intro hcon
    rw [adc_snd] at hcon
    simp only [adc_fst] at hcon
    omega

/-- Witness for C3 at x = 2^64 - 1 and y = 2^64 - 2. -/
theorem add_congruent_and_second_carry_free_witness :
    (2 ^ 64 - 1 < 2 ^ 64) ∧ (2 ^ 64 - 2 < 2 ^ 64) ∧
    (Nat.ModEq kPrime (Add (2 ^ 64 - 1) (2 ^ 64 - 2)) (2 ^ 64 - 1 + (2 ^ 64 - 2)) ∧
      ((adc (2 ^ 64 - 1) (2 ^ 64 - 2)).2 = true →
        (adc (adc (2 ^ 64 - 1) (2 ^ 64 - 2)).1 kPrimeSubC).2 = true →
        (adc (adc (adc (2 ^ 64 - 1) (2 ^ 64 - 2)).1 kPrimeSubC).1 kPrimeSubC).2 = false)) :=
  ⟨by decide, by decide,
    add_congruent_and_second_carry_free (2 ^ 64 - 1) (2 ^ 64 - 2) (by decide) (by decide)⟩

/-- C1 (code bug): at the partially reduced inputs x = 2^61 and y = 2^35
(both below 2^62, product 2^96 below 2^124) Multiply returns 2^64 - 1,
which is neither congruent to x * y modulo p nor below 2^62.  The final
sbb of a3 discards its borrow flag, so the result is off by c = 2^32 - 1
whenever that subtraction borrows. -/
theorem multiply_borrow_bug :
    Multiply (2 ^ 61) (2 ^ 35) = 2 ^ 64 - 1 ∧
    Multiply (2 ^ 61) (2 ^ 35) % kPrime ≠ (2 ^ 61 * 2 ^ 35) % kPrime ∧
    ¬ Multiply (2 ^ 61) (2 ^ 35) < 2 ^ 62 := by decide

/-- C5 (counterexample): the word 0xffffffff00000000 = 2^64 - 2^32 has all
32 high bits set, so the claimed condition holds of it, yet IsAmbiguous
returns false on it, since the source compares with strict inequality. -/
theorem is_ambiguous_counterexample :
    2 ^ 64 - 2 ^ 32 ≤ 0xffffffff00000000 ∧
    (0xffffffff00000000 : ℕ) / 2 ^ 32 = 2 ^ 32 - 1 ∧
    IsAmbiguous 0xffffffff00000000 = false := by decide

/-- C5 (amended): IsAmbiguous(w) is true exactly when w > 2^64 - 2^32,
equivalently exactly when w >= p, equivalently exactly when the high
32 bits of w are all ones and the low 32 bits are not all zero. -/
theorem is_ambiguous_iff (w : ℕ) (hw : w < 2 ^ 64) :
    (IsAmbiguous w = true ↔ 2 ^ 64 - 2 ^ 32 < w) ∧
    (IsAmbiguous w = true ↔ kPrime ≤ w) ∧
    (IsAmbiguous w = true ↔ (w / 2 ^ 32 = 2 ^ 32 - 1 ∧ w % 2 ^ 32 ≠ 0)) := by
  have hm : kAmbiguityMax = 18446744069414584320 := by decide
  have hp : kPrime = 18446744069414584321 := by decide
  have hi : IsAmbiguous w = true ↔ kAmbiguityMax < w := ⟨of_decide_eq_true, decide_eq_true⟩
  rw [hi, hm, hp]
  omega

/-- Witness for C5 at w = 2^64 - 1. -/
theorem is_ambiguous_iff_witness :
    (2 ^ 64 - 1 < 2 ^ 64) ∧
    ((IsAmbiguous (2 ^ 64 - 1) = true ↔ 2 ^ 64 - 2 ^ 32 < 2 ^ 64 - 1) ∧
      (IsAmbiguous (2 ^ 64 - 1) = true ↔ kPrime ≤ 2 ^ 64 - 1) ∧
      (IsAmbiguous (2 ^ 64 - 1) = true ↔
        ((2 ^ 64 - 1) / 2 ^ 32 = 2 ^ 32 - 1 ∧ (2 ^ 64 - 1) % 2 ^ 32 ≠ 0))) :=
  ⟨by decide, is_ambiguous_iff (2 ^ 64 - 1) (by decide)⟩

/-- Embedding of Emulate64x64to128: portable 32x32->64 schoolbook emulation
of the 64x64->128 multiply.  The first component is r_hi (written through the
reference parameter in the source), the second the returned low word. -/
def Emulate64x64to128 (x y : ℕ) : ℕ × ℕ :=
  let x0 := x % 2 ^ 32
  let x1 := (x >>> 32) % 2 ^ 32
  let y0 := y % 2 ^ 32
  let y1 := (y >>> 32) % 2 ^ 32
  let p11 := x1 * y1
  let p01 := x0 * y1
  let p10 := x1 * y0
  let p00 := x0 * y0
  let middle := (p10 + (p00 >>> 32) % 2 ^ 32 + p01 % 2 ^ 32) % 2 ^ 64
  let r_hi := (p11 + (middle >>> 32) % 2 ^ 32 + (p01 >>> 32) % 2 ^ 32) % 2 ^ 64
  (r_hi, ((middle <<< 32) % 2 ^ 64) ||| (p00 % 2 ^ 32))

/-- Untruncated sum accumulated into the 64-bit variable middle:
p10 plus the high half of p00 plus the low half of p01. -/
def middleSum (x y : ℕ) : ℕ :=
  let x0 := x % 2 ^ 32
  let x1 := (x >>> 32) % 2 ^ 32
  let y0 := y % 2 ^ 32
  let y1 := (y >>> 32) % 2 ^ 32
  x1 * y0 + ((x0 * y0) >>> 32) % 2 ^ 32 + (x0 * y1) % 2 ^ 32

/-- Arithmetic core of the 128-bit multiply emulation, stated over the four
partial products. -/
theorem mul128_arith (q00 q01 q10 q11 P : ℕ)
    (h00 : q00 ≤ 4294967295 * 4294967295) (h01 : q01 ≤ 4294967295 * 4294967295)
    (h10 : q10 ≤ 4294967295 * 4294967295) (h11 : q11 ≤ 4294967295 * 4294967295)
    (hP : P = q11 * 2 ^ 64 + q01 * 2 ^ 32 + q10 * 2 ^ 32 + q00) :
    ((q11 + ((q10 + q00 / 2 ^ 32 % 2 ^ 32 + q01 % 2 ^ 32) % 2 ^ 64) / 2 ^ 32 % 2 ^ 32
        + q01 / 2 ^ 32 % 2 ^ 32) % 2 ^ 64) = P / 2 ^ 64 ∧
    ((q10 + q00 / 2 ^ 32 % 2 ^ 32 + q01 % 2 ^ 32) % 2 ^ 64 % 2 ^ 32) * 2 ^ 32
        + q00 % 2 ^ 32 = P % 2 ^ 64 ∧
    q10 + q00 / 2 ^ 32 % 2 ^ 32 + q01 % 2 ^ 32 < 2 ^ 64 := by
  omega

/-- C7: for all 64-bit x and y the emulation returns exactly the high and low
words of the exact product x * y, its middle accumulator never exceeds
2^64 - 1 before truncation, so the emulated path agrees with the native
64x64->128 path; in particular both words at x = y = 2^64 - 1 match the
documented concrete values. -/
theorem emulate_matches_native (x y : ℕ) (hx : x < 2 ^ 64) (hy : y < 2 ^ 64) :
    (Emulate64x64to128 x y).1 = x * y / 2 ^ 64 ∧
    (Emulate64x64to128 x y).2 = x * y % 2 ^ 64 ∧
    middleSum x y < 2 ^ 64 ∧
    Emulate64x64to128 (2 ^ 64 - 1) (2 ^ 64 - 1) = (0xfffffffffffffffe, 1) := by
  have e32 : ∀ n : ℕ, n >>> 32 = n / 2 ^ 32 := fun n => Nat.shiftRight_eq_div_pow n 32
  have hxarith : x / 2 ^ 32 < 2 ^ 32 := by omega
  have hyarith : y / 2 ^ 32 < 2 ^ 32 := by omega
  have key := mul128_arith (x % 2 ^ 32 * (y % 2 ^ 32)) (x % 2 ^ 32 * (y / 2 ^ 32))
      (x / 2 ^ 32 * (y % 2 ^ 32)) (x / 2 ^ 32 * (y / 2 ^ 32)) (x * y)
      (Nat.mul_le_mul (by omega) (by omega)) (Nat.mul_le_mul (by omega) (by omega))
      (Nat.mul_le_mul (by omega) (by omega)) (Nat.mul_le_mul (by omega) (by omega))
      (by
        have h1 : x = 2 ^ 32 * (x / 2 ^ 32) + x % 2 ^ 32 := (Nat.div_add_mod x (2 ^ 32)).symm
        have h2 : y = 2 ^ 32 * (y / 2 ^ 32) + y % 2 ^ 32 := (Nat.div_add_mod y (2 ^ 32)).symm
        calc x * y
            = (2 ^ 32 * (x / 2 ^ 32) + x % 2 ^ 32) * (2 ^ 32 * (y / 2 ^ 32) + y % 2 ^ 32) := by
              rw [← h1, ← h2]
          _ = x / 2 ^ 32 * (y / 2 ^ 32) * 2 ^ 64 + x % 2 ^ 32 * (y / 2 ^ 32) * 2 ^ 32
              + x / 2 ^ 32 * (y % 2 ^ 32) * 2 ^ 32 + x % 2 ^ 32 * (y % 2 ^ 32) := by ring)
  simp only [Emulate64x64to128, middleSum, e32]
  rw [Nat.mod_eq_of_lt hxarith, Nat.mod_eq_of_lt hyarith]
  refine ⟨key.1, ?_, key.2.2, by decide⟩
  have hlor : ∀ m b : ℕ, b < 2 ^ 32 → ((m <<< 32) % 2 ^ 64) ||| b = m % 2 ^ 32 * 2 ^ 32 + b := by
    intro m b hb
    have h1 : (m <<< 32) % 2 ^ 64 = m % 2 ^ 32 * 2 ^ 32 := by
      rw [Nat.shiftLeft_eq]
      have h64 : (2 : ℕ) ^ 64 = 2 ^ 32 * 2 ^ 32 := by norm_num
      rw [h64, Nat.mul_mod_mul_right]
    rw [h1, mul_comm (m % 2 ^ 32) (2 ^ 32), ← Nat.mul_add_lt_is_or hb, mul_comm]
  rw [hlor _ _ (by omega)]
  exact key.2.1

/-- Witness for C7 at x = 2^64 - 1 and y = 3. -/
theorem emulate_matches_native_witness :
    (2 ^ 64 - 1 < 2 ^ 64) ∧ (3 < 2 ^ 64) ∧
    ((Emulate64x64to128 (2 ^ 64 - 1) 3).1 = (2 ^ 64 - 1) * 3 / 2 ^ 64 ∧
      (Emulate64x64to128 (2 ^ 64 - 1) 3).2 = (2 ^ 64 - 1) * 3 % 2 ^ 64 ∧
      middleSum (2 ^ 64 - 1) 3 < 2 ^ 64 ∧
      Emulate64x64to128 (2 ^ 64 - 1) (2 ^ 64 - 1) = (0xfffffffffffffffe, 1)) :=
  ⟨by decide, by decide, emulate_matches_native (2 ^ 64 - 1) 3 (by decide) (by decide)⟩



/-- Pointwise store of one byte: models an assignment data[j] = v. -/
def upd (m : ℕ → ℕ) (j v : ℕ) : ℕ → ℕ := fun i => if i = j then v else m i

/-- Embedding of ReadU32_LE: assemble 4 bytes little-endian. -/
def ReadU32_LE (data : ℕ → ℕ) : ℕ :=
  (data 3 <<< 24) ||| (data 2 <<< 16) ||| (data 1 <<< 8) ||| data 0

/-- Embedding of ReadU64_LE: assemble 8 bytes little-endian. -/
def ReadU64_LE (data : ℕ → ℕ) : ℕ :=
  (data 7 <<< 56) ||| (data 6 <<< 48) ||| (data 5 <<< 40) ||| (data 4 <<< 32) |||
    (data 3 <<< 24) ||| (data 2 <<< 16) ||| (data 1 <<< 8) ||| data 0

/-- Embedding of solinas64::ReadBytes_LE: the switch over 0..8 byte counts. -/
def ReadBytes_LE (data : ℕ → ℕ) (bytes : ℕ) : ℕ :=
  if bytes = 8 then ReadU64_LE data
  else if bytes = 7 then
    (data 6 <<< 48) ||| (data 5 <<< 40) ||| (data 4 <<< 32) ||| ReadU32_LE data
  else if bytes = 6 then (data 5 <<< 40) ||| (data 4 <<< 32) ||| ReadU32_LE data
  else if bytes = 5 then (data 4 <<< 32) ||| ReadU32_LE data
  else if bytes = 4 then ReadU32_LE data
  else if bytes = 3 then (data 2 <<< 16) ||| (data 1 <<< 8) ||| data 0
  else if bytes = 2 then (data 1 <<< 8) ||| data 0
  else if bytes = 1 then data 0
  else 0

/-- Embedding of WriteU32_LE: store the low 32 bits as 4 little-endian bytes. -/
def WriteU32_LE (data : ℕ → ℕ) (value : ℕ) : ℕ → ℕ :=
  upd (upd (upd (upd data 3 ((value >>> 24) % 2 ^ 8)) 2 ((value >>> 16) % 2 ^ 8))
    1 ((value >>> 8) % 2 ^ 8)) 0 (value % 2 ^ 8)

/-- Embedding of WriteU64_LE: store the low 64 bits as 8 little-endian bytes. -/
def WriteU64_LE (data : ℕ → ℕ) (value : ℕ) : ℕ → ℕ :=
  upd (upd (upd (upd (upd (upd (upd (upd data
    7 ((value >>> 56) % 2 ^ 8)) 6 ((value >>> 48) % 2 ^ 8)) 5 ((value >>> 40) % 2 ^ 8))
    4 ((value >>> 32) % 2 ^ 8)) 3 ((value >>> 24) % 2 ^ 8)) 2 ((value >>> 16) % 2 ^ 8))
    1 ((value >>> 8) % 2 ^ 8)) 0 (value % 2 ^ 8)

/-- Embedding of solinas64::WriteBytes_LE: the switch with fall-through, so a
count of 7 stores bytes 6, 5, 4 and then the low 4 bytes, and so on; counts of
0 or above 8 store nothing. -/
def WriteBytes_LE (data : ℕ → ℕ) (bytes value : ℕ) : ℕ → ℕ :=
  if bytes = 8 then WriteU64_LE data value
  else if bytes = 7 then WriteU32_LE (upd (upd (upd data 6 ((value >>> 48) % 2 ^ 8))
      5 ((value >>> 40) % 2 ^ 8)) 4 ((value >>> 32) % 2 ^ 8)) (value % 2 ^ 32)
  else if bytes = 6 then WriteU32_LE (upd (upd data 5 ((value >>> 40) % 2 ^ 8))
      4 ((value >>> 32) % 2 ^ 8)) (value % 2 ^ 32)
  else if bytes = 5 then WriteU32_LE (upd data 4 ((value >>> 32) % 2 ^ 8)) (value % 2 ^ 32)
  else if bytes = 4 then WriteU32_LE data (value % 2 ^ 32)
  else if bytes = 3 then upd (upd (upd data 2 ((value >>> 16) % 2 ^ 8))
      1 ((value >>> 8) % 2 ^ 8)) 0 (value % 2 ^ 8)
  else if bytes = 2 then upd (upd data 1 ((value >>> 8) % 2 ^ 8)) 0 (value % 2 ^ 8)
  else if bytes = 1 then upd data 0 (value % 2 ^ 8)
  else data

/-- Bitwise or of disjoint operands is addition. -/
theorem lor_small (k a b : ℕ) (ha : 2 ^ k ∣ a) (hb : b < 2 ^ k) : a ||| b = a + b := by
  obtain ⟨m, rfl⟩ := ha
  exact (Nat.mul_add_lt_is_or hb m).symm

/-- Two-byte little-endian assembly as a sum. -/
theorem lor2 (b0 b1 : ℕ) (h0 : b0 < 2 ^ 8) :
    (b1 <<< 8) ||| b0 = b1 * 2 ^ 8 + b0 := by
  simp only [Nat.shiftLeft_eq]
  exact lor_small 8 _ _ (by omega) (by omega)

/-- Three-byte little-endian assembly as a sum. -/
theorem lor3 (b0 b1 b2 : ℕ) (h0 : b0 < 2 ^ 8) (h1 : b1 < 2 ^ 8) :
    (b2 <<< 16) ||| (b1 <<< 8) ||| b0 = b2 * 2 ^ 16 + b1 * 2 ^ 8 + b0 := by
  simp only [Nat.shiftLeft_eq]
  rw [lor_small 16 (b2 * 2 ^ 16) (b1 * 2 ^ 8) (by omega) (by omega)]
  rw [lor_small 8 (b2 * 2 ^ 16 + b1 * 2 ^ 8) b0 (by omega) (by omega)]

/-- Four-byte little-endian assembly as a sum. -/
theorem lor4 (b0 b1 b2 b3 : ℕ) (h0 : b0 < 2 ^ 8) (h1 : b1 < 2 ^ 8) (h2 : b2 < 2 ^ 8) :
    (b3 <<< 24) ||| (b2 <<< 16) ||| (b1 <<< 8) ||| b0
      = b3 * 2 ^ 24 + b2 * 2 ^ 16 + b1 * 2 ^ 8 + b0 := by
  simp only [Nat.shiftLeft_eq]
  rw [lor_small 24 (b3 * 2 ^ 24) (b2 * 2 ^ 16) (by omega) (by omega)]
  rw [lor_small 16 (b3 * 2 ^ 24 + b2 * 2 ^ 16) (b1 * 2 ^ 8) (by omega) (by omega)]
  rw [lor_small 8 (b3 * 2 ^ 24 + b2 * 2 ^ 16 + b1 * 2 ^ 8) b0 (by omega) (by omega)]

/-- Eight-byte little-endian assembly as a sum. -/
theorem lor8 (b0 b1 b2 b3 b4 b5 b6 b7 : ℕ) (h0 : b0 < 2 ^ 8) (h1 : b1 < 2 ^ 8)
    (h2 : b2 < 2 ^ 8) (h3 : b3 < 2 ^ 8) (h4 : b4 < 2 ^ 8) (h5 : b5 < 2 ^ 8)
    (h6 : b6 < 2 ^ 8) :
    (b7 <<< 56) ||| (b6 <<< 48) ||| (b5 <<< 40) ||| (b4 <<< 32) ||| (b3 <<< 24) |||
      (b2 <<< 16) ||| (b1 <<< 8) ||| b0
      = b7 * 2 ^ 56 + b6 * 2 ^ 48 + b5 * 2 ^ 40 + b4 * 2 ^ 32 + b3 * 2 ^ 24
        + b2 * 2 ^ 16 + b1 * 2 ^ 8 + b0 := by
  simp only [Nat.shiftLeft_eq]
  rw [lor_small 56 (b7 * 2 ^ 56) (b6 * 2 ^ 48) (by omega) (by omega)]
  rw [lor_small 48 (b7 * 2 ^ 56 + b6 * 2 ^ 48) (b5 * 2 ^ 40) (by omega) (by omega)]
  rw [lor_small 40 (b7 * 2 ^ 56 + b6 * 2 ^ 48 + b5 * 2 ^ 40) (b4 * 2 ^ 32)
    (by omega) (by omega)]
  rw [lor_small 32 (b7 * 2 ^ 56 + b6 * 2 ^ 48 + b5 * 2 ^ 40 + b4 * 2 ^ 32) (b3 * 2 ^ 24)
    (by omega) (by omega)]
  rw [lor_small 24 (b7 * 2 ^ 56 + b6 * 2 ^ 48 + b5 * 2 ^ 40 + b4 * 2 ^ 32 + b3 * 2 ^ 24)
    (b2 * 2 ^ 16) (by omega) (by omega)]
  rw [lor_small 16 (b7 * 2 ^ 56 + b6 * 2 ^ 48 + b5 * 2 ^ 40 + b4 * 2 ^ 32 + b3 * 2 ^ 24
    + b2 * 2 ^ 16) (b1 * 2 ^ 8) (by omega) (by omega)]
  rw [lor_small 8 (b7 * 2 ^ 56 + b6 * 2 ^ 48 + b5 * 2 ^ 40 + b4 * 2 ^ 32 + b3 * 2 ^ 24
    + b2 * 2 ^ 16 + b1 * 2 ^ 8) b0 (by omega) (by omega)]

/-- Assembly of high bytes on top of a 32-bit word. -/
theorem lorTail1 (b4 w : ℕ) (hw : w < 2 ^ 32) :
    (b4 <<< 32) ||| w = b4 * 2 ^ 32 + w := by
  simp only [Nat.shiftLeft_eq]
  exact lor_small 32 _ _ (by omega) (by omega)

/-- Assembly of high bytes on top of a 32-bit word. -/
theorem lorTail2 (b4 b5 w : ℕ) (hw : w < 2 ^ 32) (h4 : b4 < 2 ^ 8) :
    (b5 <<< 40) ||| (b4 <<< 32) ||| w = b5 * 2 ^ 40 + b4 * 2 ^ 32 + w := by
  simp only [Nat.shiftLeft_eq]
  rw [lor_small 40 (b5 * 2 ^ 40) (b4 * 2 ^ 32) (by omega) (by omega)]
  rw [lor_small 32 (b5 * 2 ^ 40 + b4 * 2 ^ 32) w (by omega) (by omega)]

/-- Assembly of high bytes on top of a 32-bit word. -/
theorem lorTail3 (b4 b5 b6 w : ℕ) (hw : w < 2 ^ 32) (h4 : b4 < 2 ^ 8) (h5 : b5 < 2 ^ 8) :
    (b6 <<< 48) ||| (b5 <<< 40) ||| (b4 <<< 32) ||| w
      = b6 * 2 ^ 48 + b5 * 2 ^ 40 + b4 * 2 ^ 32 + w := by
  simp only [Nat.shiftLeft_eq]
  rw [lor_small 48 (b6 * 2 ^ 48) (b5 * 2 ^ 40) (by omega) (by omega)]
  rw [lor_small 40 (b6 * 2 ^ 48 + b5 * 2 ^ 40) (b4 * 2 ^ 32) (by omega) (by omega)]
  rw [lor_small 32 (b6 * 2 ^ 48 + b5 * 2 ^ 40 + b4 * 2 ^ 32) w (by omega) (by omega)]

/-- Branch of WriteBytes_LE for a count of 0. -/
theorem writeBytes_eq_0 (data : ℕ → ℕ) (value : ℕ) :
    WriteBytes_LE data 0 value = data := by
  unfold WriteBytes_LE
  norm_num

/-- Branch of ReadBytes_LE for a count of 0. -/
theorem readBytes_eq_0 (data : ℕ → ℕ) :
    ReadBytes_LE data 0 = 0 := by
  unfold ReadBytes_LE
  norm_num

/-- Branch of WriteBytes_LE for a count of 1. -/
theorem writeBytes_eq_1 (data : ℕ → ℕ) (value : ℕ) :
    WriteBytes_LE data 1 value = upd data 0 (value % 2 ^ 8) := by
  unfold WriteBytes_LE
  norm_num

/-- Branch of ReadBytes_LE for a count of 1. -/
theorem readBytes_eq_1 (data : ℕ → ℕ) :
    ReadBytes_LE data 1 = data 0 := by
  unfold ReadBytes_LE
  norm_num

/-- Branch of WriteBytes_LE for a count of 2. -/
theorem writeBytes_eq_2 (data : ℕ → ℕ) (value : ℕ) :
    WriteBytes_LE data 2 value = upd (upd data 1 ((value >>> 8) % 2 ^ 8)) 0 (value % 2 ^ 8) := by
  unfold WriteBytes_LE
  norm_num

/-- Branch of ReadBytes_LE for a count of 2. -/
theorem readBytes_eq_2 (data : ℕ → ℕ) :
    ReadBytes_LE data 2 = (data 1 <<< 8) ||| data 0 := by
  unfold ReadBytes_LE
  norm_num

/-- Branch of WriteBytes_LE for a count of 3. -/
theorem writeBytes_eq_3 (data : ℕ → ℕ) (value : ℕ) :
    WriteBytes_LE data 3 value = upd (upd (upd data 2 ((value >>> 16) % 2 ^ 8))
      1 ((value >>> 8) % 2 ^ 8)) 0 (value % 2 ^ 8) := by
  unfold WriteBytes_LE
  norm_num

/-- Branch of ReadBytes_LE for a count of 3. -/
theorem readBytes_eq_3 (data : ℕ → ℕ) :
    ReadBytes_LE data 3 = (data 2 <<< 16) ||| (data 1 <<< 8) ||| data 0 := by
  unfold ReadBytes_LE
  norm_num

/-- Branch of WriteBytes_LE for a count of 4. -/
theorem writeBytes_eq_4 (data : ℕ → ℕ) (value : ℕ) :
    WriteBytes_LE data 4 value = WriteU32_LE data (value % 2 ^ 32) := by
  unfold WriteBytes_LE
  norm_num

/-- Branch of ReadBytes_LE for a count of 4. -/
theorem readBytes_eq_4 (data : ℕ → ℕ) :
    ReadBytes_LE data 4 = ReadU32_LE data := by
  unfold ReadBytes_LE
  norm_num

/-- Branch of WriteBytes_LE for a count of 5. -/
theorem writeBytes_eq_5 (data : ℕ → ℕ) (value : ℕ) :
    WriteBytes_LE data 5 value = WriteU32_LE (upd data 4 ((value >>> 32) % 2 ^ 8)) (value % 2 ^ 32) := by
  unfold WriteBytes_LE
  norm_num

/-- Branch of ReadBytes_LE for a count of 5. -/
theorem readBytes_eq_5 (data : ℕ → ℕ) :
    ReadBytes_LE data 5 = (data 4 <<< 32) ||| ReadU32_LE data := by
  unfold ReadBytes_LE
  norm_num

/-- Branch of WriteBytes_LE for a count of 6. -/
theorem writeBytes_eq_6 (data : ℕ → ℕ) (value : ℕ) :
    WriteBytes_LE data 6 value = WriteU32_LE (upd (upd data 5 ((value >>> 40) % 2 ^ 8))
      4 ((value >>> 32) % 2 ^ 8)) (value % 2 ^ 32) := by
  unfold WriteBytes_LE
  norm_num

/-- Branch of ReadBytes_LE for a count of 6. -/
theorem readBytes_eq_6 (data : ℕ → ℕ) :
    ReadBytes_LE data 6 = (data 5 <<< 40) ||| (data 4 <<< 32) ||| ReadU32_LE data := by
  unfold ReadBytes_LE
  norm_num

/-- Branch of WriteBytes_LE for a count of 7. -/
theorem writeBytes_eq_7 (data : ℕ → ℕ) (value : ℕ) :
    WriteBytes_LE data 7 value = WriteU32_LE (upd (upd (upd data 6 ((value >>> 48) % 2 ^ 8))
      5 ((value >>> 40) % 2 ^ 8)) 4 ((value >>> 32) % 2 ^ 8)) (value % 2 ^ 32) := by
  unfold WriteBytes_LE
  norm_num

/-- Branch of ReadBytes_LE for a count of 7. -/
theorem readBytes_eq_7 (data : ℕ → ℕ) :
    ReadBytes_LE data 7 = (data 6 <<< 48) ||| (data 5 <<< 40) ||| (data 4 <<< 32) ||| ReadU32_LE data := by
  unfold ReadBytes_LE
  norm_num

/-- Branch of WriteBytes_LE for a count of 8. -/
theorem writeBytes_eq_8 (data : ℕ → ℕ) (value : ℕ) :
    WriteBytes_LE data 8 value = WriteU64_LE data value := by
  unfold WriteBytes_LE
  rw [if_pos rfl]

/-- Branch of ReadBytes_LE for a count of 8. -/
theorem readBytes_eq_8 (data : ℕ → ℕ) :
    ReadBytes_LE data 8 = ReadU64_LE data := by
  unfold ReadBytes_LE
  rw [if_pos rfl]

set_option maxHeartbeats 3200000 in
/-- C8: for 0 <= n <= 8, WriteBytes_LE stores exactly the low n bytes of v
little-endian at positions 0..n-1, leaves all other positions unchanged, and
counts above 8 write nothing; reading back n bytes returns v mod 2^(8n); and
ReadBytes_LE returns 0 for n = 0 and for any count above 8. -/
theorem write_read_bytes_le (mem : ℕ → ℕ) (n v : ℕ) (hn : n ≤ 8) (hv : v < 2 ^ 64) :
    (∀ i, i < n → WriteBytes_LE mem n v i = v / 2 ^ (8 * i) % 2 ^ 8) ∧
    (∀ i, n ≤ i → WriteBytes_LE mem n v i = mem i) ∧
    (∀ m, 8 < m → WriteBytes_LE mem m v = mem) ∧
    ReadBytes_LE (WriteBytes_LE mem n v) n = v % 2 ^ (8 * n) ∧
    ReadBytes_LE mem 0 = 0 ∧
    (∀ m, 8 < m → ReadBytes_LE mem m = 0) := by
  have e8 : ∀ (a k : ℕ), a >>> k = a / 2 ^ k := fun a k => Nat.shiftRight_eq_div_pow a k
  refine ⟨?_, ?_, ?_, ?_, by rw [readBytes_eq_0], ?_⟩
  · intro i hi
    interval_cases n
    · omega
    · rw [writeBytes_eq_1]
      interval_cases i <;> simp [WriteU64_LE, WriteU32_LE, upd, e8] <;> try omega
    · rw [writeBytes_eq_2]
      interval_cases i <;> simp [WriteU64_LE, WriteU32_LE, upd, e8] <;> try omega
    · rw [writeBytes_eq_3]
      interval_cases i <;> simp [WriteU64_LE, WriteU32_LE, upd, e8] <;> try omega
    · rw [writeBytes_eq_4]
      interval_cases i <;> simp [WriteU64_LE, WriteU32_LE, upd, e8] <;> try omega
    · rw [writeBytes_eq_5]
      interval_cases i <;> simp [WriteU64_LE, WriteU32_LE, upd, e8] <;> try omega
    · rw [writeBytes_eq_6]
      interval_cases i <;> simp [WriteU64_LE, WriteU32_LE, upd, e8] <;> try omega
    · rw [writeBytes_eq_7]
      interval_cases i <;> simp [WriteU64_LE, WriteU32_LE, upd, e8] <;> try omega
    · rw [writeBytes_eq_8]
      interval_cases i <;> simp [WriteU64_LE, WriteU32_LE, upd, e8] <;> try omega
  · intro i hi
    interval_cases n
    · rw [writeBytes_eq_0]
      try simp only [WriteU64_LE, WriteU32_LE, upd]
      try split_ifs <;> first | rfl | omega
    · rw [writeBytes_eq_1]
      try simp only [WriteU64_LE, WriteU32_LE, upd]
      try split_ifs <;> first | rfl | omega
    · rw [writeBytes_eq_2]
      try simp only [WriteU64_LE, WriteU32_LE, upd]
      try split_ifs <;> first | rfl | omega
    · rw [writeBytes_eq_3]
      try simp only [WriteU64_LE, WriteU32_LE, upd]
      try split_ifs <;> first | rfl | omega
    · rw [writeBytes_eq_4]
      try simp only [WriteU64_LE, WriteU32_LE, upd]
      try split_ifs <;> first | rfl | omega
    · rw [writeBytes_eq_5]
      try simp only [WriteU64_LE, WriteU32_LE, upd]
      try split_ifs <;> first | rfl | omega
    · rw [writeBytes_eq_6]
      try simp only [WriteU64_LE, WriteU32_LE, upd]
      try split_ifs <;> first | rfl | omega
    · rw [writeBytes_eq_7]
      try simp only [WriteU64_LE, WriteU32_LE, upd]
      try split_ifs <;> first | rfl | omega
    · rw [writeBytes_eq_8]
      try simp only [WriteU64_LE, WriteU32_LE, upd]
      try split_ifs <;> first | rfl | omega
  · intro m hm
    unfold WriteBytes_LE
    have e8 : m ≠ 8 := by omega
    have e7 : m ≠ 7 := by omega
    have e6 : m ≠ 6 := by omega
    have e5 : m ≠ 5 := by omega
    have e4 : m ≠ 4 := by omega
    have e3 : m ≠ 3 := by omega
    have e2 : m ≠ 2 := by omega
    have e1 : m ≠ 1 := by omega
    rw [if_neg e8, if_neg e7, if_neg e6, if_neg e5, if_neg e4, if_neg e3, if_neg e2, if_neg e1]
  · interval_cases n
    · rw [readBytes_eq_0]
      try omega
    · rw [readBytes_eq_1, writeBytes_eq_1]
      have b0 : (upd mem 0 (v % 2 ^ 8)) 0 = v % 2 ^ 8 := rfl
      rw [b0]
      try simp only [e8]
      try omega
    · rw [readBytes_eq_2, writeBytes_eq_2]
      have b0 : (upd (upd mem 1 ((v >>> 8) % 2 ^ 8)) 0 (v % 2 ^ 8)) 0 = v % 2 ^ 8 := rfl
      have b1 : (upd (upd mem 1 ((v >>> 8) % 2 ^ 8)) 0 (v % 2 ^ 8)) 1 = (v >>> 8) % 2 ^ 8 := rfl
      rw [b0, b1]
      rw [lor2 (v % 2 ^ 8) ((v >>> 8) % 2 ^ 8) (by omega)]
      try simp only [e8]
      try omega
    · rw [readBytes_eq_3, writeBytes_eq_3]
      have b0 : (upd (upd (upd mem 2 ((v >>> 16) % 2 ^ 8))
      1 ((v >>> 8) % 2 ^ 8)) 0 (v % 2 ^ 8)) 0 = v % 2 ^ 8 := rfl
      have b1 : (upd (upd (upd mem 2 ((v >>> 16) % 2 ^ 8))
      1 ((v >>> 8) % 2 ^ 8)) 0 (v % 2 ^ 8)) 1 = (v >>> 8) % 2 ^ 8 := rfl
      have b2 : (upd (upd (upd mem 2 ((v >>> 16) % 2 ^ 8))
      1 ((v >>> 8) % 2 ^ 8)) 0 (v % 2 ^ 8)) 2 = (v >>> 16) % 2 ^ 8 := rfl
      rw [b0, b1, b2]
      rw [lor3 (v % 2 ^ 8) ((v >>> 8) % 2 ^ 8) ((v >>> 16) % 2 ^ 8) (by omega) (by omega)]
      try simp only [e8]
      try omega
    · rw [readBytes_eq_4, writeBytes_eq_4]
      unfold ReadU32_LE
      have b0 : (WriteU32_LE mem (v % 2 ^ 32)) 0 = (v % 2 ^ 32) % 2 ^ 8 := rfl
      have b1 : (WriteU32_LE mem (v % 2 ^ 32)) 1 = ((v % 2 ^ 32) >>> 8) % 2 ^ 8 := rfl
      have b2 : (WriteU32_LE mem (v % 2 ^ 32)) 2 = ((v % 2 ^ 32) >>> 16) % 2 ^ 8 := rfl
      have b3 : (WriteU32_LE mem (v % 2 ^ 32)) 3 = ((v % 2 ^ 32) >>> 24) % 2 ^ 8 := rfl
      rw [b0, b1, b2, b3]
      rw [lor4 ((v % 2 ^ 32) % 2 ^ 8) (((v % 2 ^ 32) >>> 8) % 2 ^ 8) (((v % 2 ^ 32) >>> 16) % 2 ^ 8) (((v % 2 ^ 32) >>> 24) % 2 ^ 8) (by omega) (by omega) (by omega)]
      try simp only [e8]
      try omega
    · rw [readBytes_eq_5, writeBytes_eq_5]
      unfold ReadU32_LE
      have b0 : (WriteU32_LE (upd mem 4 ((v >>> 32) % 2 ^ 8)) (v % 2 ^ 32)) 0 = (v % 2 ^ 32) % 2 ^ 8 := rfl
      have b1 : (WriteU32_LE (upd mem 4 ((v >>> 32) % 2 ^ 8)) (v % 2 ^ 32)) 1 = ((v % 2 ^ 32) >>> 8) % 2 ^ 8 := rfl
      have b2 : (WriteU32_LE (upd mem 4 ((v >>> 32) % 2 ^ 8)) (v % 2 ^ 32)) 2 = ((v % 2 ^ 32) >>> 16) % 2 ^ 8 := rfl
      have b3 : (WriteU32_LE (upd mem 4 ((v >>> 32) % 2 ^ 8)) (v % 2 ^ 32)) 3 = ((v % 2 ^ 32) >>> 24) % 2 ^ 8 := rfl
      have b4 : (WriteU32_LE (upd mem 4 ((v >>> 32) % 2 ^ 8)) (v % 2 ^ 32)) 4 = (v >>> 32) % 2 ^ 8 := rfl
      rw [b0, b1, b2, b3, b4]
      rw [lor4 ((v % 2 ^ 32) % 2 ^ 8) (((v % 2 ^ 32) >>> 8) % 2 ^ 8) (((v % 2 ^ 32) >>> 16) % 2 ^ 8) (((v % 2 ^ 32) >>> 24) % 2 ^ 8) (by omega) (by omega) (by omega)]
      rw [lorTail1 ((v >>> 32) % 2 ^ 8) _ (by simp only [e8]; omega)]
      try simp only [e8]
      try omega
    · rw [readBytes_eq_6, writeBytes_eq_6]
      unfold ReadU32_LE
      have b0 : (WriteU32_LE (upd (upd mem 5 ((v >>> 40) % 2 ^ 8))
      4 ((v >>> 32) % 2 ^ 8)) (v % 2 ^ 32)) 0 = (v % 2 ^ 32) % 2 ^ 8 := rfl
      have b1 : (WriteU32_LE (upd (upd mem 5 ((v >>> 40) % 2 ^ 8))
      4 ((v >>> 32) % 2 ^ 8)) (v % 2 ^ 32)) 1 = ((v % 2 ^ 32) >>> 8) % 2 ^ 8 := rfl
      have b2 : (WriteU32_LE (upd (upd mem 5 ((v >>> 40) % 2 ^ 8))
      4 ((v >>> 32) % 2 ^ 8)) (v % 2 ^ 32)) 2 = ((v % 2 ^ 32) >>> 16) % 2 ^ 8 := rfl
      have b3 : (WriteU32_LE (upd (upd mem 5 ((v >>> 40) % 2 ^ 8))
      4 ((v >>> 32) % 2 ^ 8)) (v % 2 ^ 32)) 3 = ((v % 2 ^ 32) >>> 24) % 2 ^ 8 := rfl
      have b4 : (WriteU32_LE (upd (upd mem 5 ((v >>> 40) % 2 ^ 8))
      4 ((v >>> 32) % 2 ^ 8)) (v % 2 ^ 32)) 4 = (v >>> 32) % 2 ^ 8 := rfl
      have b5 : (WriteU32_LE (upd (upd mem 5 ((v >>> 40) % 2 ^ 8))
      4 ((v >>> 32) % 2 ^ 8)) (v % 2 ^ 32)) 5 = (v >>> 40) % 2 ^ 8 := rfl
      rw [b0, b1, b2, b3, b4, b5]
      rw [lor4 ((v % 2 ^ 32) % 2 ^ 8) (((v % 2 ^ 32) >>> 8) % 2 ^ 8) (((v % 2 ^ 32) >>> 16) % 2 ^ 8) (((v % 2 ^ 32) >>> 24) % 2 ^ 8) (by omega) (by omega) (by omega)]
      rw [lorTail2 ((v >>> 32) % 2 ^ 8) ((v >>> 40) % 2 ^ 8) _ (by simp only [e8]; omega) (by omega)]
      try simp only [e8]
      try omega
    · rw [readBytes_eq_7, writeBytes_eq_7]
      unfold ReadU32_LE
      have b0 : (WriteU32_LE (upd (upd (upd mem 6 ((v >>> 48) % 2 ^ 8))
      5 ((v >>> 40) % 2 ^ 8)) 4 ((v >>> 32) % 2 ^ 8)) (v % 2 ^ 32)) 0 = (v % 2 ^ 32) % 2 ^ 8 := rfl
      have b1 : (WriteU32_LE (upd (upd (upd mem 6 ((v >>> 48) % 2 ^ 8))
      5 ((v >>> 40) % 2 ^ 8)) 4 ((v >>> 32) % 2 ^ 8)) (v % 2 ^ 32)) 1 = ((v % 2 ^ 32) >>> 8) % 2 ^ 8 := rfl
      have b2 : (WriteU32_LE (upd (upd (upd mem 6 ((v >>> 48) % 2 ^ 8))
      5 ((v >>> 40) % 2 ^ 8)) 4 ((v >>> 32) % 2 ^ 8)) (v % 2 ^ 32)) 2 = ((v % 2 ^ 32) >>> 16) % 2 ^ 8 := rfl
      have b3 : (WriteU32_LE (upd (upd (upd mem 6 ((v >>> 48) % 2 ^ 8))
      5 ((v >>> 40) % 2 ^ 8)) 4 ((v >>> 32) % 2 ^ 8)) (v % 2 ^ 32)) 3 = ((v % 2 ^ 32) >>> 24) % 2 ^ 8 := rfl
      have b4 : (WriteU32_LE (upd (upd (upd mem 6 ((v >>> 48) % 2 ^ 8))
      5 ((v >>> 40) % 2 ^ 8)) 4 ((v >>> 32) % 2 ^ 8)) (v % 2 ^ 32)) 4 = (v >>> 32) % 2 ^ 8 := rfl
      have b5 : (WriteU32_LE (upd (upd (upd mem 6 ((v >>> 48) % 2 ^ 8))
      5 ((v >>> 40) % 2 ^ 8)) 4 ((v >>> 32) % 2 ^ 8)) (v % 2 ^ 32)) 5 = (v >>> 40) % 2 ^ 8 := rfl
      have b6 : (WriteU32_LE (upd (upd (upd mem 6 ((v >>> 48) % 2 ^ 8))
      5 ((v >>> 40) % 2 ^ 8)) 4 ((v >>> 32) % 2 ^ 8)) (v % 2 ^ 32)) 6 = (v >>> 48) % 2 ^ 8 := rfl
      rw [b0, b1, b2, b3, b4, b5, b6]
      rw [lor4 ((v % 2 ^ 32) % 2 ^ 8) (((v % 2 ^ 32) >>> 8) % 2 ^ 8) (((v % 2 ^ 32) >>> 16) % 2 ^ 8) (((v % 2 ^ 32) >>> 24) % 2 ^ 8) (by omega) (by omega) (by omega)]
      rw [lorTail3 ((v >>> 32) % 2 ^ 8) ((v >>> 40) % 2 ^ 8) ((v >>> 48) % 2 ^ 8) _ (by simp only [e8]; omega) (by omega) (by omega)]
      try simp only [e8]
      try omega
    · rw [readBytes_eq_8, writeBytes_eq_8]
      unfold ReadU64_LE
      have b0 : (WriteU64_LE mem v) 0 = v % 2 ^ 8 := rfl
      have b1 : (WriteU64_LE mem v) 1 = (v >>> 8) % 2 ^ 8 := rfl
      have b2 : (WriteU64_LE mem v) 2 = (v >>> 16) % 2 ^ 8 := rfl
      have b3 : (WriteU64_LE mem v) 3 = (v >>> 24) % 2 ^ 8 := rfl
      have b4 : (WriteU64_LE mem v) 4 = (v >>> 32) % 2 ^ 8 := rfl
      have b5 : (WriteU64_LE mem v) 5 = (v >>> 40) % 2 ^ 8 := rfl
      have b6 : (WriteU64_LE mem v) 6 = (v >>> 48) % 2 ^ 8 := rfl
      have b7 : (WriteU64_LE mem v) 7 = (v >>> 56) % 2 ^ 8 := rfl
      rw [b0, b1, b2, b3, b4, b5, b6, b7]
      rw [lor8 (v % 2 ^ 8) ((v >>> 8) % 2 ^ 8) ((v >>> 16) % 2 ^ 8) ((v >>> 24) % 2 ^ 8) ((v >>> 32) % 2 ^ 8) ((v >>> 40) % 2 ^ 8) ((v >>> 48) % 2 ^ 8) ((v >>> 56) % 2 ^ 8) (by omega) (by omega) (by omega) (by omega) (by omega) (by omega) (by omega)]
      try simp only [e8]
      try omega
  · intro m hm
    unfold ReadBytes_LE
    have e8 : m ≠ 8 := by omega
    have e7 : m ≠ 7 := by omega
    have e6 : m ≠ 6 := by omega
    have e5 : m ≠ 5 := by omega
    have e4 : m ≠ 4 := by omega
    have e3 : m ≠ 3 := by omega
    have e2 : m ≠ 2 := by omega
    have e1 : m ≠ 1 := by omega
    rw [if_neg e8, if_neg e7, if_neg e6, if_neg e5, if_neg e4, if_neg e3, if_neg e2, if_neg e1]


/-- Witness for C8 at n = 5 and v = 755. -/
theorem write_read_bytes_le_witness :
    (5 ≤ 8) ∧ (755 < 2 ^ 64) ∧
    ((∀ i, i < 5 → WriteBytes_LE (fun _ => 0) 5 755 i = 755 / 2 ^ (8 * i) % 2 ^ 8) ∧
      (∀ i, 5 ≤ i → WriteBytes_LE (fun _ => 0) 5 755 i = (fun _ => 0) i) ∧
      (∀ m, 8 < m → WriteBytes_LE (fun _ => 0) m 755 = (fun _ => 0)) ∧
      ReadBytes_LE (WriteBytes_LE (fun _ => 0) 5 755) 5 = 755 % 2 ^ (8 * 5) ∧
      ReadBytes_LE (fun _ => 0) 0 = 0 ∧
      (∀ m, 8 < m → ReadBytes_LE (fun _ => 0) m = 0)) :=
  ⟨by decide, by decide, write_read_bytes_le (fun _ => 0) 5 755 (by decide) (by decide)⟩


/-- Model of memset(m + dst, v, n) over byte memories. -/
def memset (m : ℕ → ℕ) (dst n v : ℕ) : ℕ → ℕ :=
  fun i => if dst ≤ i ∧ i < dst + n then v % 2 ^ 8 else m i

/-- Model of memcpy(m, src, n) over byte memories. -/
def memcpy (m : ℕ → ℕ) (src : ℕ → ℕ) (n : ℕ) : ℕ → ℕ :=
  fun i => if i < n then src i else m i

/-- The rounded output length (bytes + 7) AND NOT 7u, in 32-bit unsigned
arithmetic as in the source. -/
def minimumOutputBytes (bytes : ℕ) : ℕ := ((bytes + 7) % 2 ^ 32) &&& 0xfffffff8

/-- Embedding of solinas64::MultiplyRegion restricted to the special fast
cases coeff <= 1 taken verbatim from src/solinas64.cpp; the general path
iterates AppDataReader, which src/ only uses but never defines, so it is
left unmodelled (none). -/
def MultiplyRegion (data : ℕ → ℕ) (bytes coeff : ℕ) (workspace output : ℕ → ℕ) :
    Option ((ℕ → ℕ) × ℕ) :=
  if coeff ≤ 1 then
    if coeff = 0 then
      some (memset output 0 (minimumOutputBytes bytes) 0, minimumOutputBytes bytes)
    else
      some (memset (memcpy output data bytes) bytes (minimumOutputBytes bytes - bytes) 0,
        minimumOutputBytes bytes)
  else none

/-- Embedding of solinas64::MultiplyAddRegion restricted to the special fast
case coeff = 0, which returns immediately without touching workspace or
output; the general path iterates AppDataReader, which src/ only uses but
never defines, so it is left unmodelled (none). -/
def MultiplyAddRegion (data : ℕ → ℕ) (bytes coeff : ℕ) (workspace output : ℕ → ℕ) :
    Option ((ℕ → ℕ) × (ℕ → ℕ) × ℕ) :=
  if coeff = 0 then some (workspace, output, minimumOutputBytes bytes)
  else none

/-- Clearing the low three bits rounds down to a multiple of 8. -/
theorem land_mask8 (x : ℕ) (h : x < 2 ^ 32) : x &&& 0xfffffff8 = x / 8 * 8 := by
  have h1 : (0xfffffff8 : ℕ) = (2 ^ 29 - 1) <<< 3 := by decide
  have h2 : x / 8 * 8 = (x >>> 3) <<< 3 := by
    rw [Nat.shiftRight_eq_div_pow, Nat.shiftLeft_eq]
    try norm_num
  rw [h1, h2]
  apply Nat.eq_of_testBit_eq
  intro i
  rw [Nat.testBit_and, Nat.testBit_shiftLeft, Nat.testBit_shiftLeft,
    Nat.testBit_shiftRight, Nat.testBit_two_pow_sub_one]
  rcases lt_or_ge i 3 with hi | hi
  · have hd : decide (i ≥ 3) = false := by simp; omega
    rw [hd]
    simp
  · have hd : decide (i ≥ 3) = true := by simp; omega
    rw [hd]
    simp only [Bool.true_and]
    rcases lt_or_ge i 32 with hi2 | hi2
    · have h3 : decide (i - 3 < 29) = true := by simp; omega
      rw [h3]
      have h4 : 3 + (i - 3) = i := by omega
      rw [h4]
      simp
    · have h3 : decide (i - 3 < 29) = false := by simp; omega
      rw [h3]
      have hx : x.testBit (3 + (i - 3)) = false := by
        apply Nat.testBit_lt_two_pow
        calc x < 2 ^ 32 := h
          _ ≤ 2 ^ (3 + (i - 3)) := Nat.pow_le_pow_right (by norm_num) (by omega)
      rw [hx]
      simp

/-- The rounded length equals ceil(bytes / 8) * 8 when no 32-bit wrap occurs. -/
theorem minimumOutputBytes_eq (bytes : ℕ) (h : bytes + 7 < 2 ^ 32) :
    minimumOutputBytes bytes = (bytes + 7) / 8 * 8 := by
  unfold minimumOutputBytes
  rw [Nat.mod_eq_of_lt h]
  exact land_mask8 _ h

/-- MultiplyRegion with coeff = 0 zeroes the first rounded-length bytes. -/
theorem multiplyRegion_coeff0 (data workspace output : ℕ → ℕ) (bytes : ℕ)
    (h : bytes + 7 < 2 ^ 32) :
    MultiplyRegion data bytes 0 workspace output
      = some ((fun i => if i < (bytes + 7) / 8 * 8 then 0 else output i),
          (bytes + 7) / 8 * 8) := by
  unfold MultiplyRegion
  rw [if_pos (by norm_num), if_pos rfl, minimumOutputBytes_eq bytes h]
  have hm : memset output 0 ((bytes + 7) / 8 * 8) 0
      = fun i => if i < (bytes + 7) / 8 * 8 then 0 else output i := by
    funext i
    unfold memset
    split_ifs <;> first | rfl | omega
  rw [hm]

/-- MultiplyRegion with coeff = 1 copies the data and zero-pads. -/
theorem multiplyRegion_coeff1 (data workspace output : ℕ → ℕ) (bytes : ℕ)
    (h : bytes + 7 < 2 ^ 32) :
    MultiplyRegion data bytes 1 workspace output
      = some ((fun i => if i < bytes then data i
          else if i < (bytes + 7) / 8 * 8 then 0 else output i),
          (bytes + 7) / 8 * 8) := by
  unfold MultiplyRegion
  rw [if_pos (by norm_num), if_neg (by norm_num), minimumOutputBytes_eq bytes h]
  have hm : memset (memcpy output data bytes) bytes ((bytes + 7) / 8 * 8 - bytes) 0
      = fun i => if i < bytes then data i
          else if i < (bytes + 7) / 8 * 8 then 0 else output i := by
    funext i
    unfold memset memcpy
    split_ifs <;> first | rfl | omega
  rw [hm]

/-- C6: MultiplyRegion with coeff = 0 zeroes exactly the first
ceil(bytes/8)*8 output bytes and returns that count; with coeff = 1 it
copies the data bytes, zero-pads up to ceil(bytes/8)*8 bytes and returns the
same count; both cases produce zero overflow bytes (the return value is
exactly the rounded length, with no overflow words appended). -/
theorem multiply_region_small_coeff (data workspace output : ℕ → ℕ) (bytes : ℕ)
    (h : bytes + 7 < 2 ^ 32) :
    MultiplyRegion data bytes 0 workspace output
      = some ((fun i => if i < (bytes + 7) / 8 * 8 then 0 else output i),
          (bytes + 7) / 8 * 8) ∧
    MultiplyRegion data bytes 1 workspace output
      = some ((fun i => if i < bytes then data i
          else if i < (bytes + 7) / 8 * 8 then 0 else output i),
          (bytes + 7) / 8 * 8) :=
  ⟨multiplyRegion_coeff0 data workspace output bytes h,
    multiplyRegion_coeff1 data workspace output bytes h⟩

/-- Witness for C6 at bytes = 3. -/
theorem multiply_region_small_coeff_witness :
    (3 + 7 < 2 ^ 32) ∧
    (MultiplyRegion (fun i => i + 10) 3 0 (fun _ => 5) (fun _ => 7)
        = some ((fun i => if i < (3 + 7) / 8 * 8 then 0 else (fun _ : ℕ => 7) i),
            (3 + 7) / 8 * 8) ∧
      MultiplyRegion (fun i => i + 10) 3 1 (fun _ => 5) (fun _ => 7)
        = some ((fun i => if i < 3 then (fun i : ℕ => i + 10) i
            else if i < (3 + 7) / 8 * 8 then 0 else (fun _ : ℕ => 7) i),
            (3 + 7) / 8 * 8)) :=
  ⟨by decide,
    multiply_region_small_coeff (fun i => i + 10) (fun _ => 5) (fun _ => 7) 3 (by decide)⟩

/-- C10: MultiplyAddRegion with coeff = 0 returns ceil(bytes/8)*8
immediately, leaving the workspace and the output memories unchanged (the
returned memories are definitionally the input ones), in contrast to
MultiplyRegion with coeff = 0, which zeroes the first ceil(bytes/8)*8
output bytes. -/
theorem multiply_add_region_zero (data workspace output : ℕ → ℕ) (bytes : ℕ)
    (h : bytes + 7 < 2 ^ 32) :
    MultiplyAddRegion data bytes 0 workspace output
      = some (workspace, output, (bytes + 7) / 8 * 8) ∧
    MultiplyRegion data bytes 0 workspace output
      = some ((fun i => if i < (bytes + 7) / 8 * 8 then 0 else output i),
          (bytes + 7) / 8 * 8) := by
  refine ⟨?_, multiplyRegion_coeff0 data workspace output bytes h⟩
  unfold MultiplyAddRegion
  rw [if_pos rfl, minimumOutputBytes_eq bytes h]

/-- Witness for C10 at bytes = 9. -/
theorem multiply_add_region_zero_witness :
    (9 + 7 < 2 ^ 32) ∧
    (MultiplyAddRegion (fun i => i + 10) 9 0 (fun _ => 5) (fun _ => 7)
        = some ((fun _ => 5), (fun _ => 7), (9 + 7) / 8 * 8) ∧
      MultiplyRegion (fun i => i + 10) 9 0 (fun _ => 5) (fun _ => 7)
        = some ((fun i => if i < (9 + 7) / 8 * 8 then 0 else (fun _ : ℕ => 7) i),
            (9 + 7) / 8 * 8)) :=
  ⟨by decide,
    multiply_add_region_zero (fun i => i + 10) (fun _ => 5) (fun _ => 7) 9 (by decide)⟩



/-- Embedding of the CAT_ROL64 macro on uint64_t values. -/
def rol64 (x bits : ℕ) : ℕ := ((x <<< bits) % 2 ^ 64) ||| ((x >>> (64 - bits)) % 2 ^ 64)

/-- Embedding of solinas64::Random, the xoshiro256+ state. -/
structure Random where
  state0 : ℕ
  state1 : ℕ
  state2 : ℕ
  state3 : ℕ

/-- Embedding of Random::Next: one xoshiro256+ step, returning the drawn
64-bit value and the updated state. -/
def Random.Next (r : Random) : ℕ × Random :=
  let s0 := r.state0
  let s1 := r.state1
  let s2 := r.state2
  let s3 := r.state3
  let result := (s0 + s3) % 2 ^ 64
  let t := (s1 <<< 17) % 2 ^ 64
  let s2a := s2 ^^^ s0
  let s3a := s3 ^^^ s1
  let s1a := s1 ^^^ s2a
  let s0a := s0 ^^^ s3a
  let s2b := s2a ^^^ t
  let s3b := rol64 s3a 45
  (result, ⟨s0a, s1a, s2b, s3b⟩)

/-- Embedding of Random::ConvertRandToFp: take the top 61 bits, then map the
single out-of-range value 2^61 - 1 down to 2^61 - 2. -/
def Random.ConvertRandToFp (word : ℕ) : ℕ :=
  let w := word >>> 3
  (w + (2 ^ 64 - (((w + 1) % 2 ^ 64) >>> 61))) % 2 ^ 64

/-- Embedding of Random::ConvertRandToNonzeroFp: additionally map 0 to 1. -/
def Random.ConvertRandToNonzeroFp (word : ℕ) : ℕ :=
  let w := Random.ConvertRandToFp word
  (w + (((w + (2 ^ 64 - 1)) % 2 ^ 64) >>> 63)) % 2 ^ 64

/-- Embedding of Random::NextFp. -/
def Random.NextFp (r : Random) : ℕ := Random.ConvertRandToFp r.Next.1

/-- Embedding of Random::NextNonzeroFp. -/
def Random.NextNonzeroFp (r : Random) : ℕ := Random.ConvertRandToNonzeroFp r.Next.1

/-- Embedding of solinas64::HashToNonzeroFp: splitmix-style mixer, top 61
bits, then the two bias corrections. -/
def HashToNonzeroFp (word : ℕ) : ℕ :=
  let w1 := (word + 0x9e3779b97f4a7c15) % 2 ^ 64
  let w2 := (w1 ^^^ (w1 >>> 30)) * 0xbf58476d1ce4e5b9 % 2 ^ 64
  let w3 := w2 >>> 3
  let w4 := (w3 + (2 ^ 64 - (((w3 + 1) % 2 ^ 64) >>> 61))) % 2 ^ 64
  (w4 + (((w4 + (2 ^ 64 - 1)) % 2 ^ 64) >>> 63)) % 2 ^ 64

/-- Bias correction after taking 61 top bits: result is at most 2^61 - 2. -/
theorem fpTail_le (w : ℕ) (hw : w < 2 ^ 61) :
    (w + (2 ^ 64 - (w + 1) % 2 ^ 64 / 2 ^ 61)) % 2 ^ 64 ≤ 2 ^ 61 - 2 := by
  rcases Nat.lt_or_ge w (2 ^ 61 - 1) with hc | hc
  · have hd : (w + 1) % 2 ^ 64 / 2 ^ 61 = 0 := by omega
    rw [hd]
    omega
  · have hw2 : w = 2 ^ 61 - 1 := by omega
    subst hw2
    decide

/-- Zero correction: the result lies in [1, 2^61 - 2]. -/
theorem nonzeroTail_bounds (w : ℕ) (hw : w ≤ 2 ^ 61 - 2) :
    1 ≤ (w + (w + (2 ^ 64 - 1)) % 2 ^ 64 / 2 ^ 63) % 2 ^ 64 ∧
    (w + (w + (2 ^ 64 - 1)) % 2 ^ 64 / 2 ^ 63) % 2 ^ 64 ≤ 2 ^ 61 - 2 := by
  rcases Nat.eq_zero_or_pos w with hz | hp
  · subst hz
    decide
  · have h1 : (w + (2 ^ 64 - 1)) % 2 ^ 64 = w - 1 := by omega
    rw [h1]
    have h2 : (w - 1) / 2 ^ 63 = 0 := by omega
    rw [h2]
    omega

/-- ConvertRandToFp of a 64-bit word is at most 2^61 - 2 (hence below p). -/
theorem convertRandToFp_le (word : ℕ) (h : word < 2 ^ 64) :
    Random.ConvertRandToFp word ≤ 2 ^ 61 - 2 := by
  unfold Random.ConvertRandToFp
  simp only [Nat.shiftRight_eq_div_pow]
  exact fpTail_le (word / 2 ^ 3) (by omega)

/-- ConvertRandToNonzeroFp of a 64-bit word lies in [1, 2^61 - 2]. -/
theorem convertRandToNonzeroFp_bounds (word : ℕ) (h : word < 2 ^ 64) :
    1 ≤ Random.ConvertRandToNonzeroFp word ∧
    Random.ConvertRandToNonzeroFp word ≤ 2 ^ 61 - 2 := by
  unfold Random.ConvertRandToNonzeroFp Random.ConvertRandToFp
  simp only [Nat.shiftRight_eq_div_pow]
  exact nonzeroTail_bounds _ (fpTail_le (word / 2 ^ 3) (by omega))

/-- HashToNonzeroFp always lies in [1, 2^61 - 2]. -/
theorem hashToNonzeroFp_bounds (seed : ℕ) :
    1 ≤ HashToNonzeroFp seed ∧ HashToNonzeroFp seed ≤ 2 ^ 61 - 2 := by
  unfold HashToNonzeroFp
  simp only [Nat.shiftRight_eq_div_pow]
  exact nonzeroTail_bounds _ (fpTail_le _ (by omega))

/-- C9: every NextFp output and every NextNonzeroFp output of any generator
state, and every HashToNonzeroFp output of any 64-bit seed, is at most
2^61 - 2; hence NextFp lies in [0, p), the nonzero variants lie in [1, p),
and all outputs are below 2^62, the partially reduced precondition of
Multiply. -/
theorem random_fp_outputs_bounded (r : Random) (seed : ℕ) (hseed : seed < 2 ^ 64) :
    (r.NextFp < kPrime ∧ r.NextFp ≤ 2 ^ 61 - 2 ∧ r.NextFp < 2 ^ 62) ∧
    (1 ≤ r.NextNonzeroFp ∧ r.NextNonzeroFp < kPrime ∧
      r.NextNonzeroFp ≤ 2 ^ 61 - 2 ∧ r.NextNonzeroFp < 2 ^ 62) ∧
    (1 ≤ HashToNonzeroFp seed ∧ HashToNonzeroFp seed < kPrime ∧
      HashToNonzeroFp seed ≤ 2 ^ 61 - 2 ∧ HashToNonzeroFp seed < 2 ^ 62) := by
  have hp : kPrime = 18446744069414584321 := by decide
  have hn : r.Next.1 < 2 ^ 64 := by
    have he : r.Next.1 = (r.state0 + r.state3) % 2 ^ 64 := rfl
    rw [he]
    omega
  have h1 := convertRandToFp_le r.Next.1 hn
  have h2 := convertRandToNonzeroFp_bounds r.Next.1 hn
  have h3 := hashToNonzeroFp_bounds seed
  unfold Random.NextFp Random.NextNonzeroFp
  omega


/-- Witness for C9 at the state (1, 2, 3, 4) and seed 0. -/
theorem random_fp_outputs_bounded_witness :
    (0 < 2 ^ 64) ∧
    (((⟨1, 2, 3, 4⟩ : Random).NextFp < kPrime ∧
        (⟨1, 2, 3, 4⟩ : Random).NextFp ≤ 2 ^ 61 - 2 ∧
        (⟨1, 2, 3, 4⟩ : Random).NextFp < 2 ^ 62) ∧
      (1 ≤ (⟨1, 2, 3, 4⟩ : Random).NextNonzeroFp ∧
        (⟨1, 2, 3, 4⟩ : Random).NextNonzeroFp < kPrime ∧
        (⟨1, 2, 3, 4⟩ : Random).NextNonzeroFp ≤ 2 ^ 61 - 2 ∧
        (⟨1, 2, 3, 4⟩ : Random).NextNonzeroFp < 2 ^ 62) ∧
      (1 ≤ HashToNonzeroFp 0 ∧ HashToNonzeroFp 0 < kPrime ∧
        HashToNonzeroFp 0 ≤ 2 ^ 61 - 2 ∧ HashToNonzeroFp 0 < 2 ^ 62)) :=
  ⟨by decide, random_fp_outputs_bounded ⟨1, 2, 3, 4⟩ 0 (by decide)⟩

/-- Fuel-driven square-and-multiply modular exponentiation. -/
def powModAux : ℕ → ℕ → ℕ → ℕ → ℕ
  | 0, _, _, m => 1 % m
  | fuel + 1, b, e, m =>
    if e = 0 then 1 % m
    else
      let r := powModAux fuel (b * b % m) (e / 2) m
      if e % 2 = 1 then r * b % m else r

theorem powModAux_lt (fuel b e m : ℕ) (hm : 0 < m) : powModAux fuel b e m < m := by
  induction fuel generalizing b e with
  | zero =>
    unfold powModAux
    exact Nat.mod_lt _ hm
  | succ fuel ih =>
    unfold powModAux
    split_ifs
    · exact Nat.mod_lt _ hm
    · exact Nat.mod_lt _ hm
    · exact ih _ _

theorem powModAux_spec (fuel b e m : ℕ) (hm : 0 < m) (he : e < 2 ^ fuel) :
    powModAux fuel b e m % m = b ^ e % m := by
  induction fuel generalizing b e with
  | zero =>
    have he0 : e = 0 := by omega
    subst he0
    unfold powModAux
    simp [Nat.pow_zero]
  | succ fuel ih =>
    unfold powModAux
    have hhalf : e / 2 < 2 ^ fuel := by
      have := Nat.pow_succ 2 fuel
      omega
    split_ifs with h0 hodd
    · subst h0
      simp [Nat.pow_zero]
    · have h1 : Nat.ModEq m (powModAux fuel (b * b % m) (e / 2) m) ((b * b) ^ (e / 2)) := by
        unfold Nat.ModEq
        rw [ih _ _ hhalf, ← Nat.pow_mod]
      have h2 := h1.mul_right b
      have h3 : (b * b) ^ (e / 2) * b = b ^ e := by
        rw [← pow_two, ← pow_mul, ← pow_succ]
        congr 1
        omega
      rw [Nat.mod_mod_of_dvd _ dvd_rfl]
      exact h3 ▸ h2
    · rw [ih _ _ hhalf, ← Nat.pow_mod, ← pow_two, ← pow_mul]
      congr 2
      omega

/-- The base 7 raised to a power below 2^64 is not 1 modulo p whenever the
fast modular exponentiation says so. -/
theorem seven_pow_ne_one (E : ℕ) (hE : E < 2 ^ 64)
    (hne : powModAux 64 7 E kPrime ≠ 1) : (7 : ZMod kPrime) ^ E ≠ 1 := by
  intro hcon
  have hcast : ((7 ^ E : ℕ) : ZMod kPrime) = ((1 : ℕ) : ZMod kPrime) := by
    push_cast
    exact hcon
  have hmod : 7 ^ E ≡ 1 [MOD kPrime] := (ZMod.natCast_eq_natCast_iff _ _ _).mp hcast
  have hspec : powModAux 64 7 E kPrime % kPrime = 7 ^ E % kPrime :=
    powModAux_spec 64 7 E kPrime (by decide) hE
  have hlt : powModAux 64 7 E kPrime < kPrime := powModAux_lt 64 7 E kPrime (by decide)
  apply hne
  calc powModAux 64 7 E kPrime
      = powModAux 64 7 E kPrime % kPrime := (Nat.mod_eq_of_lt hlt).symm
    _ = 7 ^ E % kPrime := hspec
    _ = 1 % kPrime := hmod
    _ = 1 := Nat.mod_eq_of_lt (by decide)

/-- Fermat-style identity for the Lucas certificate, computed by the kernel. -/
theorem seven_pow_eq_one : (7 : ZMod kPrime) ^ (kPrime - 1) = 1 := by
  have hval : powModAux 64 7 (kPrime - 1) kPrime = 1 := by decide
  have hmod : 7 ^ (kPrime - 1) ≡ 1 [MOD kPrime] := by
    show 7 ^ (kPrime - 1) % kPrime = 1 % kPrime
    rw [← powModAux_spec 64 7 (kPrime - 1) kPrime (by decide) (by decide), hval]
  have hcast := (ZMod.natCast_eq_natCast_iff (7 ^ (kPrime - 1)) 1 kPrime).mpr hmod
  push_cast at hcast
  exact hcast

/-- The Solinas modulus 2^64 - 2^32 + 1 is prime, by the Lucas certificate
with witness 7 and the factorization p - 1 = 2^32 * 3 * 5 * 17 * 257 * 65537. -/
theorem kPrime_prime : Nat.Prime kPrime := by
  apply lucas_primality kPrime 7 seven_pow_eq_one
  intro q hq hdvd
  have hfac : kPrime - 1 = 2 ^ 32 * 3 * 5 * 17 * 257 * 65537 := by decide
  rw [hfac] at hdvd
  have hq6 : q = 2 ∨ q = 3 ∨ q = 5 ∨ q = 17 ∨ q = 257 ∨ q = 65537 := by
    rcases (Nat.Prime.dvd_mul hq).mp hdvd with h | h
    · rcases (Nat.Prime.dvd_mul hq).mp h with h | h
      · rcases (Nat.Prime.dvd_mul hq).mp h with h | h
        · rcases (Nat.Prime.dvd_mul hq).mp h with h | h
          · rcases (Nat.Prime.dvd_mul hq).mp h with h | h
            · exact Or.inl ((Nat.prime_dvd_prime_iff_eq hq Nat.prime_two).mp
                (hq.dvd_of_dvd_pow h))
            · exact Or.inr (Or.inl ((Nat.prime_dvd_prime_iff_eq hq (by norm_num)).mp h))
          · exact Or.inr (Or.inr (Or.inl
              ((Nat.prime_dvd_prime_iff_eq hq (by norm_num)).mp h)))
        · exact Or.inr (Or.inr (Or.inr (Or.inl
            ((Nat.prime_dvd_prime_iff_eq hq (by norm_num)).mp h))))
      · exact Or.inr (Or.inr (Or.inr (Or.inr (Or.inl
          ((Nat.prime_dvd_prime_iff_eq hq (by norm_num)).mp h)))))
    · exact Or.inr (Or.inr (Or.inr (Or.inr (Or.inr
        ((Nat.prime_dvd_prime_iff_eq hq (by norm_num)).mp h)))))
  rcases hq6 with rfl | rfl | rfl | rfl | rfl | rfl
  · exact seven_pow_ne_one ((kPrime - 1) / 2) (by decide) (by decide)
  · exact seven_pow_ne_one ((kPrime - 1) / 3) (by decide) (by decide)
  · exact seven_pow_ne_one ((kPrime - 1) / 5) (by decide) (by decide)
  · exact seven_pow_ne_one ((kPrime - 1) / 17) (by decide) (by decide)
  · exact seven_pow_ne_one ((kPrime - 1) / 257) (by decide) (by decide)
  · exact seven_pow_ne_one ((kPrime - 1) / 65537) (by decide) (by decide)

/-- The unrolled binary-free eGCD loop of solinas64::Inverse, with the two
coefficient updates wrapped modulo 2^64 exactly as uint64_t arithmetic. -/
def inverseLoop (u1 u3 v1 v3 : ℕ) : ℕ :=
  if h1 : v3 = 0 then (if u3 = 1 then u1 else 0)
  else if h2 : u3 % v3 = 0 then
    (if v3 = 1 then (kPrime + (2 ^ 64 - v1)) % 2 ^ 64 else 0)
  else
    inverseLoop ((u1 + u3 / v3 * v1) % 2 ^ 64) (u3 % v3)
      ((v1 + v3 / (u3 % v3) * ((u1 + u3 / v3 * v1) % 2 ^ 64)) % 2 ^ 64) (v3 % (u3 % v3))
termination_by v3
decreasing_by
  have ha : u3 % v3 < v3 := Nat.mod_lt _ (Nat.pos_of_ne_zero h1)
  have hb : v3 % (u3 % v3) < u3 % v3 := Nat.mod_lt _ (Nat.pos_of_ne_zero h2)
  omega

/-- Embedding of solinas64::Inverse. -/
def Inverse (u : ℕ) : ℕ :=
  if u % kPrime = 0 then 0
  else inverseLoop 1 (u % kPrime) (kPrime / (u % kPrime)) (kPrime % (u % kPrime))

theorem inverseLoop_exit1 (u1 u3 v1 : ℕ) (h : u3 = 1) : inverseLoop u1 u3 v1 0 = u1 := by
  unfold inverseLoop
  rw [dif_pos rfl, if_pos h]

theorem inverseLoop_exit2 (u1 u3 v1 v3 : ℕ) (h1 : v3 ≠ 0) (h2 : u3 % v3 = 0) (h3 : v3 = 1) :
    inverseLoop u1 u3 v1 v3 = (kPrime + (2 ^ 64 - v1)) % 2 ^ 64 := by
  unfold inverseLoop
  rw [dif_neg h1, dif_pos h2, if_pos h3]

theorem inverse_zero : Inverse 0 = 0 := by
  unfold Inverse
  rw [if_pos (by decide)]

theorem inverse_one : Inverse 1 = 1 := by
  unfold Inverse
  have h1 : (1 : ℕ) % kPrime = 1 := by decide
  rw [if_neg (by decide), h1, Nat.div_one, Nat.mod_one]
  exact inverseLoop_exit1 _ _ _ rfl

theorem inverse_pm1 : Inverse (kPrime - 1) = kPrime - 1 := by
  unfold Inverse
  have h1 : (kPrime - 1) % kPrime = kPrime - 1 := by decide
  have h2 : kPrime / (kPrime - 1) = 1 := by decide
  have h3 : kPrime % (kPrime - 1) = 1 := by decide
  rw [if_neg (by decide), h1, h2, h3]
  rw [inverseLoop_exit2 _ _ _ _ (by decide) (Nat.mod_one _) rfl]
  decide

theorem inverseLoop_invariant (X : ℕ) :
    ∀ v3 u3 u1 v1, 0 < u3 → 1 ≤ u1 → u1 ≤ kPrime - 1 → 1 ≤ v1 →
      u1 * v3 + v1 * u3 = kPrime →
      (u1 : ZMod kPrime) * (X : ZMod kPrime) = (u3 : ZMod kPrime) →
      (v1 : ZMod kPrime) * (X : ZMod kPrime) = -(v3 : ZMod kPrime) →
      Nat.gcd u3 v3 = 1 →
      1 ≤ inverseLoop u1 u3 v1 v3 ∧ inverseLoop u1 u3 v1 v3 ≤ kPrime - 1 ∧
        ((inverseLoop u1 u3 v1 v3 : ℕ) : ZMod kPrime) * (X : ZMod kPrime) = 1 := by
  intro v3
  induction v3 using Nat.strong_induction_on with
  | _ v3 ih =>
    intro u3 u1 v1 hu3pos hu1lo hu1hi hv1lo hinv hc1 hc2 hgcd
    rcases Nat.eq_zero_or_pos v3 with hv0 | hvpos
    · subst hv0
      rw [Nat.gcd_zero_right] at hgcd
      subst hgcd
      unfold inverseLoop
      rw [dif_pos rfl, if_pos rfl]
      refine ⟨hu1lo, hu1hi, ?_⟩
      simpa using hc1
    · have hv3ne : v3 ≠ 0 := by omega
      have hg1 : Nat.gcd (u3 % v3) v3 = 1 := by
        have h := Nat.gcd_rec v3 u3
        rw [Nat.gcd_comm v3 u3, hgcd] at h
        exact h.symm
      have hE1 : (u1 + u3 / v3 * v1) * v3 + v1 * (u3 % v3) = kPrime := by
        have hd : v3 * (u3 / v3) + u3 % v3 = u3 := Nat.div_add_mod u3 v3
        calc (u1 + u3 / v3 * v1) * v3 + v1 * (u3 % v3)
            = u1 * v3 + v1 * (v3 * (u3 / v3) + u3 % v3) := by ring
          _ = u1 * v3 + v1 * u3 := by rw [hd]
          _ = kPrime := hinv
      rcases Nat.eq_zero_or_pos (u3 % v3) with hux0 | huxpos
      · -- exit in the middle of the loop body: u3 % v3 = 0 forces v3 = 1
        rw [hux0, Nat.gcd_zero_left] at hg1
        subst hg1
        rw [mul_one] at hinv
        unfold inverseLoop
        rw [dif_neg hv3ne, dif_pos hux0, if_pos rfl]
        have hv1le : v1 ≤ kPrime - 1 := by
          have h2 : v1 ≤ v1 * u3 := Nat.le_mul_of_pos_right _ hu3pos
          have h4 : v1 * u3 < kPrime := by
            calc v1 * u3 < u1 + v1 * u3 := Nat.lt_add_of_pos_left (by omega)
              _ = kPrime := hinv
          exact le_trans h2 (Nat.le_pred_of_lt h4)
        have hv1p : v1 ≤ kPrime := le_trans hv1le (Nat.sub_le _ _)
        have hk : kPrime = 18446744069414584321 := by decide
        have hres : (kPrime + (2 ^ 64 - v1)) % 2 ^ 64 = kPrime - v1 := by
          rw [hk] at hv1p ⊢
          omega
        rw [hres]
        refine ⟨?_, ?_, ?_⟩
        · rw [hk] at hv1le ⊢; omega
        · rw [hk] at hv1le ⊢; omega
        · have hcast : ((kPrime - v1 : ℕ) : ZMod kPrime) = -(v1 : ZMod kPrime) := by
            rw [Nat.cast_sub hv1p, ZMod.natCast_self]
            ring
          rw [hcast]
          calc (-(v1 : ZMod kPrime)) * (X : ZMod kPrime)
              = -((v1 : ZMod kPrime) * (X : ZMod kPrime)) := by ring
            _ = -(-((1 : ℕ) : ZMod kPrime)) := by rw [hc2]
            _ = 1 := by push_cast; ring
      · -- recursive case
        have huxne : u3 % v3 ≠ 0 := Nat.pos_iff_ne_zero.mp huxpos
        -- bound on the new u1, so the uint64 wrap is a no-op
        have hu1le : u1 + u3 / v3 * v1 ≤ kPrime - 1 := by
          have h2 : u1 + u3 / v3 * v1 ≤ (u1 + u3 / v3 * v1) * v3 :=
            Nat.le_mul_of_pos_right _ hvpos
          have h3 : 0 < v1 * (u3 % v3) := Nat.mul_pos (by omega) huxpos
          have h4 : (u1 + u3 / v3 * v1) * v3 < kPrime := by
            calc (u1 + u3 / v3 * v1) * v3
                < (u1 + u3 / v3 * v1) * v3 + v1 * (u3 % v3) := Nat.lt_add_of_pos_right h3
              _ = kPrime := hE1
          exact le_trans h2 (Nat.le_pred_of_lt h4)
        have hmod1 : (u1 + u3 / v3 * v1) % 2 ^ 64 = u1 + u3 / v3 * v1 :=
          Nat.mod_eq_of_lt (lt_of_le_of_lt hu1le (by decide))
        have hE2 : (u1 + u3 / v3 * v1) * (v3 % (u3 % v3)) +
            (v1 + v3 / (u3 % v3) * (u1 + u3 / v3 * v1)) * (u3 % v3) = kPrime := by
          have hd2 : (u3 % v3) * (v3 / (u3 % v3)) + v3 % (u3 % v3) = v3 :=
            Nat.div_add_mod v3 (u3 % v3)
          calc (u1 + u3 / v3 * v1) * (v3 % (u3 % v3)) +
              (v1 + v3 / (u3 % v3) * (u1 + u3 / v3 * v1)) * (u3 % v3)
              = (u1 + u3 / v3 * v1) * ((u3 % v3) * (v3 / (u3 % v3)) + v3 % (u3 % v3)) +
                v1 * (u3 % v3) := by ring
            _ = (u1 + u3 / v3 * v1) * v3 + v1 * (u3 % v3) := by rw [hd2]
            _ = kPrime := hE1
        -- bound on the new v1
        have hv1le : v1 + v3 / (u3 % v3) * (u1 + u3 / v3 * v1) ≤ kPrime := by
          have h2 : v1 + v3 / (u3 % v3) * (u1 + u3 / v3 * v1) ≤
              (v1 + v3 / (u3 % v3) * (u1 + u3 / v3 * v1)) * (u3 % v3) :=
            Nat.le_mul_of_pos_right _ huxpos
          have h3 : (v1 + v3 / (u3 % v3) * (u1 + u3 / v3 * v1)) * (u3 % v3) ≤ kPrime := by
            calc (v1 + v3 / (u3 % v3) * (u1 + u3 / v3 * v1)) * (u3 % v3)
                ≤ (u1 + u3 / v3 * v1) * (v3 % (u3 % v3)) +
                  (v1 + v3 / (u3 % v3) * (u1 + u3 / v3 * v1)) * (u3 % v3) :=
                Nat.le_add_left _ _
              _ = kPrime := hE2
          exact le_trans h2 h3
        have hmod2 : (v1 + v3 / (u3 % v3) * (u1 + u3 / v3 * v1)) % 2 ^ 64 =
            v1 + v3 / (u3 % v3) * (u1 + u3 / v3 * v1) :=
          Nat.mod_eq_of_lt (lt_of_le_of_lt hv1le (by decide))
        -- congruence for the new u1
        have hcd := congrArg (fun n : ℕ => (n : ZMod kPrime)) (Nat.div_add_mod u3 v3)
        push_cast at hcd
        have hc1x : ((u1 + u3 / v3 * v1 : ℕ) : ZMod kPrime) * (X : ZMod kPrime) =
            ((u3 % v3 : ℕ) : ZMod kPrime) := by
          push_cast
          linear_combination hc1 + ((u3 / v3 : ℕ) : ZMod kPrime) * hc2 - hcd
        -- congruence for the new v1
        have hcd2 := congrArg (fun n : ℕ => (n : ZMod kPrime)) (Nat.div_add_mod v3 (u3 % v3))
        push_cast at hcd2
        have hc2x : ((v1 + v3 / (u3 % v3) * (u1 + u3 / v3 * v1) : ℕ) : ZMod kPrime) *
            (X : ZMod kPrime) = -((v3 % (u3 % v3) : ℕ) : ZMod kPrime) := by
          have hc1y := hc1x
          push_cast at hc1y
          push_cast
          linear_combination hc2 + ((v3 / (u3 % v3) : ℕ) : ZMod kPrime) * hc1y + hcd2
        -- gcd invariant for the recursive call
        have hg2 : Nat.gcd (u3 % v3) (v3 % (u3 % v3)) = 1 := by
          have h := Nat.gcd_rec (u3 % v3) v3
          rw [hg1] at h
          rw [Nat.gcd_comm]
          exact h.symm
        have hmeas : v3 % (u3 % v3) < v3 :=
          lt_trans (Nat.mod_lt v3 huxpos) (Nat.mod_lt u3 hvpos)
        unfold inverseLoop
        rw [dif_neg hv3ne, dif_neg huxne, hmod1, hmod2]
        exact ih (v3 % (u3 % v3)) hmeas (u3 % v3) (u1 + u3 / v3 * v1)
          (v1 + v3 / (u3 % v3) * (u1 + u3 / v3 * v1)) huxpos
          (le_trans hu1lo (Nat.le_add_right _ _)) hu1le
          (le_trans hv1lo (Nat.le_add_right _ _)) hE2 hc1x hc2x hg2

theorem inverse_main (x : ℕ) (hx0 : x % kPrime ≠ 0) :
    0 < Inverse x ∧ Inverse x ≤ kPrime - 1 ∧
      ((Inverse x : ℕ) : ZMod kPrime) * (x : ZMod kPrime) = 1 := by
  have hppos : 0 < kPrime := by decide
  have hu3pos : 0 < x % kPrime := Nat.pos_of_ne_zero hx0
  have hu3lt : x % kPrime < kPrime := Nat.mod_lt x hppos
  have hIeq : Inverse x =
      inverseLoop 1 (x % kPrime) (kPrime / (x % kPrime)) (kPrime % (x % kPrime)) := by
    unfold Inverse
    rw [if_neg hx0]
  have hd := Nat.div_add_mod kPrime (x % kPrime)
  have hinv : 1 * (kPrime % (x % kPrime)) + kPrime / (x % kPrime) * (x % kPrime) = kPrime := by
    calc 1 * (kPrime % (x % kPrime)) + kPrime / (x % kPrime) * (x % kPrime)
        = (x % kPrime) * (kPrime / (x % kPrime)) + kPrime % (x % kPrime) := by ring
      _ = kPrime := hd
  have hxc : ((x % kPrime : ℕ) : ZMod kPrime) = (x : ZMod kPrime) :=
    (ZMod.natCast_eq_natCast_iff _ _ _).mpr (Nat.mod_mod_of_dvd x dvd_rfl)
  have hc1 : ((1 : ℕ) : ZMod kPrime) * (x : ZMod kPrime) = ((x % kPrime : ℕ) : ZMod kPrime) := by
    rw [hxc]
    push_cast
    ring
  have hdc := congrArg (fun n : ℕ => (n : ZMod kPrime)) hd
  push_cast at hdc
  rw [ZMod.natCast_self] at hdc
  have hc2 : ((kPrime / (x % kPrime) : ℕ) : ZMod kPrime) * (x : ZMod kPrime) =
      -(((kPrime % (x % kPrime) : ℕ)) : ZMod kPrime) := by
    rw [← hxc]
    linear_combination hdc
  have hnd : ¬ kPrime ∣ (x % kPrime) := fun hdvd =>
    absurd (Nat.le_of_dvd hu3pos hdvd) (not_le.mpr hu3lt)
  have hcop : Nat.gcd kPrime (x % kPrime) = 1 :=
    Nat.Coprime.gcd_eq_one ((Nat.Prime.coprime_iff_not_dvd kPrime_prime).mpr hnd)
  have hgcd : Nat.gcd (x % kPrime) (kPrime % (x % kPrime)) = 1 := by
    calc Nat.gcd (x % kPrime) (kPrime % (x % kPrime))
        = Nat.gcd (kPrime % (x % kPrime)) (x % kPrime) := Nat.gcd_comm _ _
      _ = Nat.gcd (x % kPrime) kPrime := (Nat.gcd_rec _ _).symm
      _ = Nat.gcd kPrime (x % kPrime) := Nat.gcd_comm _ _
      _ = 1 := hcop
  have hv1lo : 1 ≤ kPrime / (x % kPrime) :=
    (Nat.one_le_div_iff hu3pos).mpr (le_of_lt hu3lt)
  have hres := inverseLoop_invariant x (kPrime % (x % kPrime)) (x % kPrime) 1
    (kPrime / (x % kPrime)) hu3pos (le_refl 1) (by decide) hv1lo hinv hc1 hc2 hgcd
  rw [← hIeq] at hres
  exact ⟨hres.1, hres.2.1, hres.2.2⟩

end solinas64

namespace solinas64

/-- C4: Inverse is total on 64-bit inputs (the embedded loop terminates); it
returns 0 if and only if x is congruent to 0 mod p, and otherwise returns the
unique y with 0 < y < p and x * y congruent to 1 mod p. In particular
Inverse 0 = 0, Inverse 1 = 1 and Inverse (p - 1) = p - 1. -/
theorem inverse_total_correct (x : ℕ) (hx : x < 2 ^ 64) :
    (Inverse x = 0 ↔ x % kPrime = 0) ∧
    (x % kPrime ≠ 0 →
      0 < Inverse x ∧ Inverse x < kPrime ∧
      (x * Inverse x) % kPrime = 1 % kPrime ∧
      ∀ y, 0 < y → y < kPrime → (x * y) % kPrime = 1 % kPrime → y = Inverse x) ∧
    Inverse 0 = 0 ∧ Inverse 1 = 1 ∧ Inverse (kPrime - 1) = kPrime - 1 := by
  have hppos : 0 < kPrime := by decide
  refine ⟨?_, ?_, inverse_zero, inverse_one, inverse_pm1⟩
  · constructor
    · intro h0
      by_contra hx0
      have hres := inverse_main x hx0
      omega
    · intro h0
      unfold Inverse
      rw [if_pos h0]
  · intro hx0
    obtain ⟨h1, h2, h3⟩ := inverse_main x hx0
    have hIlt : Inverse x < kPrime := lt_of_le_of_lt h2 (Nat.sub_lt hppos one_pos)
    refine ⟨h1, hIlt, ?_, ?_⟩
    · have hc : ((x * Inverse x : ℕ) : ZMod kPrime) = ((1 : ℕ) : ZMod kPrime) := by
        push_cast
        linear_combination h3
      exact (ZMod.natCast_eq_natCast_iff _ _ _).mp hc
    · intro y hy0 hyp hyc
      have hy1 : ((x * y : ℕ) : ZMod kPrime) = ((1 : ℕ) : ZMod kPrime) :=
        (ZMod.natCast_eq_natCast_iff _ _ _).mpr hyc
      push_cast at hy1
      have hyr : ((y : ℕ) : ZMod kPrime) = ((Inverse x : ℕ) : ZMod kPrime) := by
        linear_combination ((Inverse x : ℕ) : ZMod kPrime) * hy1 -
          ((y : ℕ) : ZMod kPrime) * h3
      have hmod : y % kPrime = Inverse x % kPrime :=
        (ZMod.natCast_eq_natCast_iff _ _ _).mp hyr
      rw [Nat.mod_eq_of_lt hyp, Nat.mod_eq_of_lt hIlt] at hmod
      exact hmod

/-- Witness for C4 at x = 2, whose inverse is (p + 1) / 2. -/
theorem inverse_total_correct_witness :
    2 < 2 ^ 64 ∧
    ((Inverse 2 = 0 ↔ 2 % kPrime = 0) ∧
    (2 % kPrime ≠ 0 →
      0 < Inverse 2 ∧ Inverse 2 < kPrime ∧
      (2 * Inverse 2) % kPrime = 1 % kPrime ∧
      ∀ y, 0 < y → y < kPrime → (2 * y) % kPrime = 1 % kPrime → y = Inverse 2) ∧
    Inverse 0 = 0 ∧ Inverse 1 = 1 ∧ Inverse (kPrime - 1) = kPrime - 1) :=
  ⟨by decide, inverse_total_correct 2 (by decide)⟩

end solinas64
